import Mathlib

/-!
# Touchpad-Emulator: the touch handlers of `src/assets/main.js`

A shallow embedding of the page script.  The script keeps one module-level
array, `ongoingTouches`, and reacts to four touch signals.  Everything else it
does is an effect on the platform: calls on the 2D drawing context, calls on a
fresh `XMLHttpRequest`, `evt.preventDefault()` and the text of the log element.

Modelling decisions:

* JavaScript numbers are modelled as `Int` (identifiers are integers, and the
  coordinates are pixel coordinates); `NaN`, infinities and fractions are out of
  the model.  `%` is truncated remainder (`Int.tmod`), `Math.floor(a / b)` is
  floored division (`Int.fdiv`).  The source divides binary64 numbers: for an
  integer of absolute value below `2 ^ 53` (touch identifiers are Web IDL `long`
  values, far inside that range) the quotient by 3 or by 7 is rounded by less
  than its distance to the next integer, so the floor is that of the exact
  quotient.  Beyond that range the exact arithmetic here is not the arithmetic
  of the source, and the theorems that speak of the colour of an arbitrary
  identifier assume the range.
* The state is a record `World`: the array `ongoingTouches`, the text of the
  log element, the page origin, and a trace of the platform calls in the order
  they were issued.
* `Array.prototype.splice` and `Number.prototype.toString(16)` are platform
  built-ins; they are modelled after ECMAScript (`splice`, `toString16`).
* Reading `ongoingTouches[idx].x` throws when the element is `undefined`; the
  two handlers that do so return `Option World`, `none` standing for the throw.
* The loop variable `touch` is an implicit global in the source; it is only
  read inside the iteration that assigned it, so it is a local binding here.
-/

namespace TouchpadEmulator

/-! ## Data model -/

/-- One entry of `evt.changedTouches`, as the platform delivers it. -/
structure RawTouch where
  identifier : Int
  clientX : Int
  clientY : Int
  deriving DecidableEq, Repr

/-- The result of `canvasDom.getBoundingClientRect()`. -/
structure Rect where
  left : Int
  top : Int
  width : Int
  height : Int
  deriving DecidableEq, Repr

/-- The record built in `getTouches` and stored in `ongoingTouches`. -/
structure Touch where
  identifier : Int
  x : Int
  y : Int
  deriving DecidableEq, Repr

/-- The platform calls the script issues.  `arc` is always called with the
angles `0`, `2 * Math.PI` and `false`, which are left out. `xhrOpen`,
`xhrSetRequestHeader` and `xhrSend` are the three calls of `send_post`; the body
of `xhrSend` is the argument of `JSON.stringify`, the object with the single key
`touches`. -/
inductive Effect where
  | preventDefault
  | beginPath
  | arc (x y radius : Int)
  | setFillStyle (color : String)
  | fill
  | moveTo (x y : Int)
  | lineTo (x y : Int)
  | setLineWidth (width : Int)
  | setStrokeStyle (color : String)
  | stroke
  | fillRect (x y w h : Int)
  | xhrOpen (method url : String)
  | xhrSetRequestHeader (name value : String)
  | xhrSend (touches : List Touch)
  deriving DecidableEq, Repr

/-- Whether the call is one on an `XMLHttpRequest`. -/
def Effect.isXhr : Effect → Bool
  | .xhrOpen _ _ => true
  | .xhrSetRequestHeader _ _ => true
  | .xhrSend _ => true
  | _ => false

/-- Whether the call is one on the 2D drawing context. -/
def Effect.isDrawing : Effect → Bool
  | .preventDefault => false
  | .xhrOpen _ _ => false
  | .xhrSetRequestHeader _ _ => false
  | .xhrSend _ => false
  | _ => true

/-- The state the script reads and writes. -/
structure World where
  ongoingTouches : List Touch
  trace : List Effect
  logText : String
  origin : String
  deriving DecidableEq, Repr

/-- The page right after load: `const ongoingTouches = []`. -/
def World.initial (origin : String) : World :=
  { ongoingTouches := [], trace := [], logText := "", origin := origin }

/-- Record one platform call. -/
def emit (e : Effect) (w : World) : World :=
  { w with trace := w.trace ++ [e] }

/-! ## Platform built-ins -/

/-- `Number.prototype.toString(16)` on an integer. -/
def toString16 (n : Int) : String :=
  if n < 0 then "-" ++ String.mk (Nat.toDigits 16 n.natAbs)
  else String.mk (Nat.toDigits 16 n.toNat)

/-- `Array.prototype.splice(start, deleteCount, ...items)`: the array after
the call. A negative `start` counts from the end. -/
def splice (arr : List Touch) (start deleteCount : Int) (items : List Touch) :
    List Touch :=
  let len : Int := arr.length
  let actualStart : Int :=
    if start < 0 then Max.max (len + start) 0 else Min.min start len
  let actualDeleteCount : Int := Min.min (Max.max deleteCount 0) (len - actualStart)
  arr.take actualStart.toNat ++ items ++
    arr.drop (actualStart + actualDeleteCount).toNat

/-! ## The functions of `main.js` -/

/-- `log(msg)`: the new text is the message, a blank, a newline and the old
text. -/
def log (msg : String) (w : World) : World :=
  { w with logText := msg ++ " \n" ++ w.logText }

/-- `send_post(end_point, touches)`. -/
def send_post (end_point : String) (touches : List Touch) (w : World) : World :=
  let w := emit (.xhrOpen "POST" (w.origin ++ "/" ++ end_point)) w
  let w := emit (.xhrSetRequestHeader "Content-Type" "application/json") w
  emit (.xhrSend touches) w

/-- `colorForTouch(touch)`.  The divisions are exact; they are the divisions of
the source for identifiers of absolute value below `2 ^ 53`. -/
def colorForTouch (touch : Touch) : String :=
  let r := Int.tmod touch.identifier 16
  let g := Int.tmod (Int.fdiv touch.identifier 3) 16
  let b := Int.tmod (Int.fdiv touch.identifier 7) 16
  let r := toString16 r
  let g := toString16 g
  let b := toString16 b
  "#" ++ r ++ g ++ b

/-- `clamp(num, min, max)`. -/
def clamp (num min max : Int) : Int :=
  Min.min (Max.max num min) max

/-- `getTouches(canvasDom, touchList)`, with the bounding rectangle of the
canvas passed in. -/
def getTouches (rect : Rect) (touchList : List RawTouch) : List Touch :=
  touchList.map fun t =>
    { identifier := t.identifier
      x := clamp (t.clientX - rect.left) 0 (rect.width - 2)
      y := clamp (t.clientY - rect.top) 0 (rect.height - 2) }

/-- The loop of `ongoingTouchIndexById`, entered at index `i` with the
records from `i` on still to visit. -/
def ongoingTouchIndexByIdFrom (idToFind : Int) : List Touch → Nat → Int
  | [], _ => -1
  | t :: rest, i =>
    if t.identifier = idToFind then (i : Int)
    else ongoingTouchIndexByIdFrom idToFind rest (i + 1)

/-- `ongoingTouchIndexById(idToFind)`. -/
def ongoingTouchIndexById (ongoingTouches : List Touch) (idToFind : Int) : Int :=
  ongoingTouchIndexByIdFrom idToFind ongoingTouches 0

/-- The body of the loop of `handleStart`. -/
def handleStartTouch (touch : Touch) (w : World) : World :=
  let w := log ("touchstart, id: " ++ toString touch.identifier) w
  let w := { w with ongoingTouches := w.ongoingTouches ++ [touch] }
  let color := colorForTouch touch
  let w := log ("color of touch with id " ++ toString touch.identifier ++ " = " ++ color) w
  let w := emit .beginPath w
  let w := emit (.arc touch.x touch.y 4) w
  let w := emit (.setFillStyle color) w
  emit .fill w

/-- `handleStart(evt)`. -/
def handleStart (rect : Rect) (changedTouches : List RawTouch) (w : World) : World :=
  let w := emit .preventDefault w
  let touches := getTouches rect changedTouches
  let w := touches.foldl (fun w touch => handleStartTouch touch w) w
  send_post "touchstart" touches w

/-- The body of the loop of `handleMove`. -/
def handleMoveTouch (touch : Touch) (w : World) : Option World :=
  let color := colorForTouch touch
  let idx := ongoingTouchIndexById w.ongoingTouches touch.identifier
  if idx ≥ 0 then
    let w := log ("continuing touch " ++ toString idx) w
    let w := emit .beginPath w
    match w.ongoingTouches.get? idx.toNat with
    | none => none
    | some stored =>
      let w := log ("ctx.moveTo( " ++ toString stored.x ++ ", " ++ toString stored.y ++ " );") w
      let w := emit (.moveTo stored.x stored.y) w
      let w := log ("ctx.lineTo( " ++ toString touch.x ++ ", " ++ toString touch.y ++ " );") w
      let w := emit (.lineTo touch.x touch.y) w
      let w := emit (.setLineWidth 4) w
      let w := emit (.setStrokeStyle color) w
      let w := emit .stroke w
      some { w with ongoingTouches := splice w.ongoingTouches idx 1 [touch] }
  else
    some (log "can't figure out which touch to continue" w)

/-- `handleMove(evt)`. -/
def handleMove (rect : Rect) (changedTouches : List RawTouch) (w : World) :
    Option World :=
  let w := emit .preventDefault w
  let touches := getTouches rect changedTouches
  (touches.foldlM (fun w touch => handleMoveTouch touch w) w).map
    (send_post "touchmove" touches)

/-- The body of the loop of `handleEnd`. -/
def handleEndTouch (touch : Touch) (w : World) : Option World :=
  let color := colorForTouch touch
  let idx := ongoingTouchIndexById w.ongoingTouches touch.identifier
  if idx ≥ 0 then
    let w := emit (.setLineWidth 4) w
    let w := emit (.setFillStyle color) w
    let w := emit .beginPath w
    match w.ongoingTouches.get? idx.toNat with
    | none => none
    | some stored =>
      let w := emit (.moveTo stored.x stored.y) w
      let w := emit (.lineTo touch.x touch.y) w
      let w := emit (.fillRect (touch.x - 4) (touch.y - 4) 8 8) w
      some { w with ongoingTouches := splice w.ongoingTouches idx 1 [] }
  else
    some (log "can't figure out which touch to end" w)

/-- `handleEnd(evt)`. -/
def handleEnd (rect : Rect) (changedTouches : List RawTouch) (w : World) :
    Option World :=
  let w := emit .preventDefault w
  let touches := getTouches rect changedTouches
  let w := log "touchend" w
  (touches.foldlM (fun w touch => handleEndTouch touch w) w).map
    (send_post "touchend" touches)

/-- The body of the loop of `handleCancel`. -/
def handleCancelTouch (touch : Touch) (w : World) : World :=
  let idx := ongoingTouchIndexById w.ongoingTouches touch.identifier
  { w with ongoingTouches := splice w.ongoingTouches idx 1 [] }

/-- `handleCancel(evt)`. -/
def handleCancel (rect : Rect) (changedTouches : List RawTouch) (w : World) : World :=
  let w := emit .preventDefault w
  let w := log "touchcancel." w
  let touches := getTouches rect changedTouches
  let w := touches.foldl (fun w touch => handleCancelTouch touch w) w
  send_post "touchcancel" touches w

/-! ## Specification vocabulary -/

/-- The value `v` is the point of the interval `[lo, hi]` nearest to `d`. -/
def NearestIn (lo hi d v : Int) : Prop :=
  lo ≤ v ∧ v ≤ hi ∧ (∀ u : Int, lo ≤ u → u ≤ hi → |d - v| ≤ |d - u|) ∧
    (lo ≤ d → d ≤ hi → v = d) ∧ (d < lo → v = lo) ∧ (hi < d → v = hi)

/-- The lowercase hexadecimal digit of a value in `0 .. 15`. -/
def hexDigit (n : Int) : Char :=
  "0123456789abcdef".toList.getD n.toNat '?'

/-- The three `XMLHttpRequest` calls that make one report. -/
def report (origin end_point : String) (touches : List Touch) : List Effect :=
  [.xhrOpen "POST" (origin ++ "/" ++ end_point),
   .xhrSetRequestHeader "Content-Type" "application/json",
   .xhrSend touches]

/-- Whether the call is `ctx.stroke()`. -/
def Effect.isStroke : Effect → Bool
  | .stroke => true
  | _ => false

/-- The world `w'` comes from `w` by appending platform calls that all satisfy
`allowed`; the origin is the same. -/
def Extends (allowed : Effect → Bool) (w w' : World) : Prop :=
  w'.origin = w.origin ∧ ∃ mid, w'.trace = w.trace ++ mid ∧ ∀ e ∈ mid, allowed e = true

/-- The calls a handler may issue before its report. -/
def notXhr (e : Effect) : Bool := !Effect.isXhr e

/-- The calls `handleEnd` issues before its report. -/
def notXhrNorStroke (e : Effect) : Bool := !Effect.isXhr e && !Effect.isStroke e

/-! ## Sequences of batches -/

/-- One delivery of a start, end or cancel signal: the bounding rectangle of
the canvas at that moment and `evt.changedTouches`. -/
inductive Batch where
  | start (rect : Rect) (changedTouches : List RawTouch)
  | finish (rect : Rect) (changedTouches : List RawTouch)
  | cancel (rect : Rect) (changedTouches : List RawTouch)
  deriving DecidableEq, Repr

/-- The listener registered for the signal, run on the batch. -/
def dispatch (w : World) : Batch → Option World
  | .start rect c => some (handleStart rect c w)
  | .finish rect c => handleEnd rect c w
  | .cancel rect c => some (handleCancel rect c w)

/-- The page after a sequence of batches, starting from the empty registry. -/
def run (origin : String) (batches : List Batch) : Option World :=
  batches.foldlM dispatch (World.initial origin)

/-- The identifiers that are down after one more batch: a start batch puts its
identifiers down, an end or cancel batch lifts them. -/
def stepDown (down : List Int) : Batch → List Int
  | .start _ c => (down ++ c.map RawTouch.identifier).dedup
  | .finish _ c => down.filter (fun id => decide (id ∉ c.map RawTouch.identifier))
  | .cancel _ c => down.filter (fun id => decide (id ∉ c.map RawTouch.identifier))

/-- The identifiers that are down (started and not since ended or cancelled)
after a sequence of batches. -/
def downIds (batches : List Batch) : List Int :=
  batches.foldl stepDown []

/-- A batch the platform can deliver while the identifiers `down` are down: a
start batch carries pairwise distinct identifiers none of which is down, a cancel
batch carries pairwise distinct identifiers all of which are down. -/
def admissible (down : List Int) : Batch → Bool
  | .start _ c =>
    decide ((c.map RawTouch.identifier).Nodup) &&
      (c.map RawTouch.identifier).all (fun id => decide (id ∉ down))
  | .finish _ _ => true
  | .cancel _ c =>
    decide ((c.map RawTouch.identifier).Nodup) &&
      (c.map RawTouch.identifier).all (fun id => decide (id ∈ down))

/-- Every batch of the sequence is admissible when it arrives. -/
def admissibleFrom (down : List Int) : List Batch → Bool
  | [] => true
  | b :: rest => admissible down b && admissibleFrom (stepDown down b) rest

/-- The registry holds no identifier twice and holds exactly the identifiers
of `down`. -/
def RegistryMatches (reg : List Touch) (down : List Int) : Prop :=
  (reg.map Touch.identifier).Nodup ∧ ∀ id, id ∈ reg.map Touch.identifier ↔ id ∈ down

/-! ## Lemmas on the pure functions and on the loop bodies -/

theorem clamp_nearest (d hi : Int) (h : 0 ≤ hi) : NearestIn 0 hi d (clamp d 0 hi) := by
  unfold NearestIn clamp
  refine ⟨?_, ?_, ?_, ?_, ?_, ?_⟩
  · exact le_min (le_max_right _ _) h
  · exact min_le_right _ _
  · intro u hu0 hu1
    rcases le_total d 0 with hd | hd
    · rw [max_eq_right hd, min_eq_left h]
      rw [abs_le]; constructor <;> [skip; skip] <;> rcases abs_cases (d - u) with ⟨e, _⟩ | ⟨e, _⟩ <;> omega
    · rw [max_eq_left hd]
      rcases le_total d hi with hd1 | hd1
      · rw [min_eq_left hd1]; simp
      · rw [min_eq_right hd1]
        rw [abs_le]; constructor <;> [skip; skip] <;> rcases abs_cases (d - u) with ⟨e, _⟩ | ⟨e, _⟩ <;> omega
  · intro h0 h1
    rw [max_eq_left h0, min_eq_left h1]
  · intro h0
    rw [max_eq_right h0.le, min_eq_left h]
  · intro h1
    rw [max_eq_left (h.trans h1.le), min_eq_right h1.le]

theorem toString16_digit (n : Nat) (h : n < 16) :
    toString16 (n : Int) = String.mk [hexDigit n] := by
  interval_cases n <;> decide

theorem indexFrom_cases (idToFind : Int) (l : List Touch) (i : Nat) :
    ((∀ t ∈ l, t.identifier ≠ idToFind) ∧ ongoingTouchIndexByIdFrom idToFind l i = -1) ∨
    (∃ pre t post, l = pre ++ t :: post ∧ t.identifier = idToFind ∧
      (∀ u ∈ pre, u.identifier ≠ idToFind) ∧
      ongoingTouchIndexByIdFrom idToFind l i = ((i + pre.length : Nat) : Int)) := by
  induction l generalizing i with
  | nil => left; simp [ongoingTouchIndexByIdFrom]
  | cons a rest ih =>
    by_cases ha : a.identifier = idToFind
    · right
      exact ⟨[], a, rest, rfl, ha, by simp, by simp [ongoingTouchIndexByIdFrom, ha]⟩
    · rcases ih (i + 1) with ⟨hall, hres⟩ | ⟨pre, t, post, hl, ht, hpre, hres⟩
      · left
        refine ⟨?_, by simp [ongoingTouchIndexByIdFrom, ha, hres]⟩
        intro t ht
        rcases List.mem_cons.mp ht with rfl | ht
        · exact ha
        · exact hall t ht
      · right
        refine ⟨a :: pre, t, post, by simp [hl], ht, ?_, ?_⟩
        · intro u hu
          rcases List.mem_cons.mp hu with rfl | hu
          · exact ha
          · exact hpre u hu
        · simp only [ongoingTouchIndexByIdFrom, ha, if_false, hres, List.length_cons]
          congr 1; omega

theorem index_not_found (reg : List Touch) (idToFind : Int)
    (h : ∀ t ∈ reg, t.identifier ≠ idToFind) : ongoingTouchIndexById reg idToFind = -1 := by
  rcases indexFrom_cases idToFind reg 0 with ⟨_, hres⟩ | ⟨pre, t, post, hl, ht, _, _⟩
  · exact hres
  · exact absurd ht (h t (by simp [hl]))

theorem index_found (reg : List Touch) (idToFind : Int)
    (h : ∃ t ∈ reg, t.identifier = idToFind) :
    ∃ pre t post, reg = pre ++ t :: post ∧ t.identifier = idToFind ∧
      (∀ u ∈ pre, u.identifier ≠ idToFind) ∧
      ongoingTouchIndexById reg idToFind = (pre.length : Int) := by
  rcases indexFrom_cases idToFind reg 0 with ⟨hall, _⟩ | ⟨pre, t, post, hl, ht, hpre, hres⟩
  · obtain ⟨t, ht, hid⟩ := h
    exact absurd hid (hall t ht)
  · exact ⟨pre, t, post, hl, ht, hpre, by simpa [ongoingTouchIndexById] using hres⟩

theorem splice_at (pre post items : List Touch) (t : Touch) :
    splice (pre ++ t :: post) (pre.length : Int) 1 items = pre ++ items ++ post := by
  have h1 : ¬ ((pre.length : Int) < 0) := by omega
  have h2 : Min.min (pre.length : Int) ((pre ++ t :: post).length : Int) = pre.length := by
    simp
    omega
  have h3 : Min.min (Max.max (1 : Int) 0) (((pre ++ t :: post).length : Int) - pre.length) = 1 := by
    simp
  simp only [splice, h1, if_false, h2, h3]
  have h4 : ((pre.length : Int) + 1).toNat = pre.length + 1 := by omega
  simp [h4]

theorem splice_minus_one (arr items : List Touch) :
    splice arr (-1) 1 items = arr.dropLast ++ items := by
  rcases List.eq_nil_or_concat arr with rfl | ⟨init, last, rfl⟩
  · simp [splice]
  · have h2 : Max.max (((init ++ [last]).length : Int) + -1) 0 = init.length := by
      simp
    have h3 : Min.min (Max.max (1 : Int) 0) (((init ++ [last]).length : Int) - init.length) = 1 := by
      simp
    have h4 : ((init.length : Int) + 1).toNat = init.length + 1 := by omega
    simp only [splice, h2, h3, h4]
    simp

theorem index_split (idToFind : Int) (pre post : List Touch) (t : Touch) (i : Nat)
    (hid : t.identifier = idToFind) (hpre : ∀ u ∈ pre, u.identifier ≠ idToFind) :
    ongoingTouchIndexByIdFrom idToFind (pre ++ t :: post) i = ((i + pre.length : Nat) : Int) := by
  induction pre generalizing i with
  | nil => simp [ongoingTouchIndexByIdFrom, hid]
  | cons a rest ih =>
    have ha : a.identifier ≠ idToFind := hpre a (by simp)
    have hrest : ∀ u ∈ rest, u.identifier ≠ idToFind := fun u hu => hpre u (by simp [hu])
    rw [List.cons_append]
    simp only [ongoingTouchIndexByIdFrom, ha, if_false]
    rw [ih (i + 1) hrest]
    simp only [List.length_cons]
    congr 1; omega

theorem index_at (reg pre post : List Touch) (t : Touch) (idToFind : Int)
    (hreg : reg = pre ++ t :: post) (hid : t.identifier = idToFind)
    (hpre : ∀ u ∈ pre, u.identifier ≠ idToFind) :
    ongoingTouchIndexById reg idToFind = (pre.length : Int) := by
  subst hreg
  simpa [ongoingTouchIndexById] using index_split idToFind pre post t 0 hid hpre

theorem get_split (pre post : List Touch) (t : Touch) :
    (pre ++ t :: post).get? ((pre.length : Int)).toNat = some t := by
  rw [Int.toNat_ofNat, List.get?_eq_getElem?, List.getElem?_append_right (le_refl _)]
  simp

theorem handleEndTouch_found (touch : Touch) (w : World) (pre post : List Touch) (t : Touch)
    (hreg : w.ongoingTouches = pre ++ t :: post) (hid : t.identifier = touch.identifier)
    (hpre : ∀ u ∈ pre, u.identifier ≠ touch.identifier) :
    handleEndTouch touch w = some
      { w with
        ongoingTouches := pre ++ post
        trace := w.trace ++ [.setLineWidth 4, .setFillStyle (colorForTouch touch), .beginPath,
          .moveTo t.x t.y, .lineTo touch.x touch.y,
          .fillRect (touch.x - 4) (touch.y - 4) 8 8] } := by
  have hidx := index_at w.ongoingTouches pre post t touch.identifier hreg hid hpre
  rw [hreg] at hidx
  have hge : (pre.length : Int) ≥ 0 := by omega
  have hsp := splice_at pre post [] t
  simp only [List.append_nil] at hsp
  simp only [handleEndTouch, hidx, hge, if_true, emit, hreg, get_split, hsp]
  simp

theorem handleEndTouch_absent (touch : Touch) (w : World)
    (h : ∀ t ∈ w.ongoingTouches, t.identifier ≠ touch.identifier) :
    handleEndTouch touch w = some (log "can't figure out which touch to end" w) := by
  have hidx := index_not_found w.ongoingTouches touch.identifier h
  simp [handleEndTouch, hidx]

theorem handleMoveTouch_found (touch : Touch) (w : World) (pre post : List Touch) (t : Touch)
    (hreg : w.ongoingTouches = pre ++ t :: post) (hid : t.identifier = touch.identifier)
    (hpre : ∀ u ∈ pre, u.identifier ≠ touch.identifier) :
    handleMoveTouch touch w = some
      { w with
        ongoingTouches := pre ++ touch :: post
        trace := w.trace ++ [.beginPath, .moveTo t.x t.y, .lineTo touch.x touch.y,
          .setLineWidth 4, .setStrokeStyle (colorForTouch touch), .stroke]
        logText := "ctx.lineTo( " ++ toString touch.x ++ ", " ++ toString touch.y ++ " );" ++ " \n" ++
          ("ctx.moveTo( " ++ toString t.x ++ ", " ++ toString t.y ++ " );" ++ " \n" ++
          ("continuing touch " ++ toString (pre.length : Int) ++ " \n" ++ w.logText)) } := by
  have hidx := index_at w.ongoingTouches pre post t touch.identifier hreg hid hpre
  rw [hreg] at hidx
  have hge : (pre.length : Int) ≥ 0 := by omega
  have hsp := splice_at pre post [touch] t
  simp only [handleMoveTouch, hidx, hge, if_true, emit, log, hreg, get_split, hsp]
  simp

theorem handleMoveTouch_absent (touch : Touch) (w : World)
    (h : ∀ t ∈ w.ongoingTouches, t.identifier ≠ touch.identifier) :
    handleMoveTouch touch w = some (log "can't figure out which touch to continue" w) := by
  have hidx := index_not_found w.ongoingTouches touch.identifier h
  simp [handleMoveTouch, hidx]

theorem handleCancelTouch_found (touch : Touch) (w : World) (pre post : List Touch) (t : Touch)
    (hreg : w.ongoingTouches = pre ++ t :: post) (hid : t.identifier = touch.identifier)
    (hpre : ∀ u ∈ pre, u.identifier ≠ touch.identifier) :
    handleCancelTouch touch w = { w with ongoingTouches := pre ++ post } := by
  have hidx := index_at w.ongoingTouches pre post t touch.identifier hreg hid hpre
  rw [hreg] at hidx
  have hsp := splice_at pre post [] t
  simp only [List.append_nil] at hsp
  simp only [handleCancelTouch, hidx, hreg, hsp]

theorem handleCancelTouch_absent (touch : Touch) (w : World)
    (h : ∀ t ∈ w.ongoingTouches, t.identifier ≠ touch.identifier) :
    handleCancelTouch touch w = { w with ongoingTouches := w.ongoingTouches.dropLast } := by
  have hidx := index_not_found w.ongoingTouches touch.identifier h
  simp [handleCancelTouch, hidx, splice_minus_one]

theorem getElem_mid {α : Type} (pre post : List α) (x : α) :
    (pre ++ x :: post)[pre.length]? = some x := by
  rw [List.getElem?_append_right (le_refl _)]
  simp

/-- One iteration of the loop of `handleMove` on a registry without duplicate
identifiers, for a touch whose identifier is stored at index `i`. -/
theorem handleMoveTouch_step (touch : Touch) (w : World) (i : Nat) (stored : Touch)
    (hnodup : (w.ongoingTouches.map Touch.identifier).Nodup)
    (hi : w.ongoingTouches.get? i = some stored)
    (hid : stored.identifier = touch.identifier) :
    ∃ w', handleMoveTouch touch w = some w' ∧
      w'.trace = w.trace ++ [.beginPath, .moveTo stored.x stored.y, .lineTo touch.x touch.y,
        .setLineWidth 4, .setStrokeStyle (colorForTouch touch), .stroke] ∧
      w'.ongoingTouches = w.ongoingTouches.set i touch ∧
      w'.ongoingTouches.get? i = some touch ∧
      w'.ongoingTouches.length = w.ongoingTouches.length ∧
      w'.ongoingTouches.map Touch.identifier = w.ongoingTouches.map Touch.identifier ∧
      (∀ j, j ≠ i → w'.ongoingTouches.get? j = w.ongoingTouches.get? j) ∧
      w'.origin = w.origin := by
  have hmem : ∃ t ∈ w.ongoingTouches, t.identifier = touch.identifier :=
    ⟨stored, List.get?_mem hi, hid⟩
  obtain ⟨pre, t, post, hreg, ht, hpre, -⟩ := index_found w.ongoingTouches touch.identifier hmem
  have hlt : i < w.ongoingTouches.length := by
    rw [List.get?_eq_getElem?] at hi
    exact (List.getElem?_eq_some.mp hi).1
  have hi2 : i = pre.length := by
    have hl1 : i < (w.ongoingTouches.map Touch.identifier).length := by simpa using hlt
    have hl2 : pre.length < (w.ongoingTouches.map Touch.identifier).length := by
      simp [hreg]
    have e1 : (w.ongoingTouches.map Touch.identifier)[i] = touch.identifier := by
      rw [List.get?_eq_getElem?] at hi
      obtain ⟨_, h⟩ := List.getElem?_eq_some.mp hi
      simp [h, hid]
    have e2 : (w.ongoingTouches.map Touch.identifier)[pre.length] = touch.identifier := by
      have h := getElem_mid (pre.map Touch.identifier) (post.map Touch.identifier) t.identifier
      rw [List.length_map] at h
      have h2 : (w.ongoingTouches.map Touch.identifier)[pre.length]? = some touch.identifier := by
        rw [hreg, List.map_append, List.map_cons, h, ht]
      exact (List.getElem?_eq_some.mp h2).2
    exact (hnodup.getElem_inj_iff).mp (e1.trans e2.symm)
  have hst : stored = t := by
    rw [hreg, hi2, List.get?_eq_getElem?, List.getElem?_append_right (le_refl _)] at hi
    simpa using hi.symm
  subst hst
  refine ⟨_, handleMoveTouch_found touch w pre post stored hreg ht hpre, rfl, ?_, ?_, ?_, ?_, ?_,
    rfl⟩
  · simp [hreg, hi2]
  · show (pre ++ touch :: post).get? i = some touch
    rw [hi2, List.get?_eq_getElem?]
    exact getElem_mid pre post touch
  · simp [hreg]
  · simp [hreg, ht]
  · intro j hj
    simp only [hreg, hi2] at hj ⊢
    rw [List.get?_eq_getElem?, List.get?_eq_getElem?]
    rcases lt_or_gt_of_ne hj with h | h
    · rw [List.getElem?_append_left h, List.getElem?_append_left h]
    · rw [List.getElem?_append_right h.le, List.getElem?_append_right h.le]
      obtain ⟨k, hk⟩ : ∃ k, j - pre.length = k + 1 := ⟨j - pre.length - 1, by omega⟩
      simp [hk]

/-- C1: `getTouches` keeps the number, order and identifiers of the raw touches
and clamps the translated coordinates to the nearest point of `[0, width-2]` and
`[0, height-2]`. -/
theorem getTouches_clamps (rect : Rect) (touchList : List RawTouch)
    (hw : 2 ≤ rect.width) (hh : 2 ≤ rect.height) :
    (getTouches rect touchList).length = touchList.length ∧
    (getTouches rect touchList).map Touch.identifier = touchList.map RawTouch.identifier ∧
    ∀ (i : Nat) (raw : RawTouch), touchList.get? i = some raw →
      ∃ t, (getTouches rect touchList).get? i = some t ∧
        t.identifier = raw.identifier ∧
        NearestIn 0 (rect.width - 2) (raw.clientX - rect.left) t.x ∧
        NearestIn 0 (rect.height - 2) (raw.clientY - rect.top) t.y := by
  refine ⟨by simp [getTouches], by simp [getTouches, Function.comp_def], ?_⟩
  intro i raw hi
  refine ⟨{ identifier := raw.identifier
            x := clamp (raw.clientX - rect.left) 0 (rect.width - 2)
            y := clamp (raw.clientY - rect.top) 0 (rect.height - 2) }, ?_, rfl, ?_, ?_⟩
  · rw [List.get?_eq_getElem?] at hi ⊢
    simp only [getTouches, List.getElem?_map, hi, Option.map_some']
  · exact clamp_nearest _ _ (by omega)
  · exact clamp_nearest _ _ (by omega)

theorem getTouches_clamps_witness :
    (getTouches ⟨5, 5, 100, 50⟩ [⟨1, 0, 200⟩, ⟨2, 15, 25⟩]).length = 2 ∧
    (getTouches ⟨5, 5, 100, 50⟩ [⟨1, 0, 200⟩, ⟨2, 15, 25⟩]).map Touch.identifier = [1, 2] :=
  let h := getTouches_clamps ⟨5, 5, 100, 50⟩ [⟨1, 0, 200⟩, ⟨2, 15, 25⟩] (by decide) (by decide)
  ⟨h.1, h.2.1⟩

/-- C7: for a non-negative identifier below `2 ^ 53` (the range in which the
division of the source is exact integer arithmetic) `colorForTouch` is `#`
followed by the hexadecimal digits of `identifier mod 16`,
`floor(identifier/3) mod 16` and `floor(identifier/7) mod 16`. -/
theorem colorForTouch_format (touch : Touch) (h : 0 ≤ touch.identifier)
    (_hsafe : touch.identifier < 2 ^ 53) :
    colorForTouch touch = String.mk ['#', hexDigit (touch.identifier % 16),
      hexDigit (touch.identifier / 3 % 16), hexDigit (touch.identifier / 7 % 16)] ∧
    (colorForTouch touch).length = 4 ∧
    hexDigit (touch.identifier % 16) ∈ "0123456789abcdef".toList ∧
    hexDigit (touch.identifier / 3 % 16) ∈ "0123456789abcdef".toList ∧
    hexDigit (touch.identifier / 7 % 16) ∈ "0123456789abcdef".toList := by
  have key : ∀ m : Int, 0 ≤ m → ∃ n : Nat, n < 16 ∧ Int.tmod m 16 = (n : Int) ∧ m % 16 = (n : Int) := by
    intro m hm
    refine ⟨(m % 16).toNat, by omega, ?_, by omega⟩
    rw [Int.tmod_eq_emod hm (by decide)]
    omega
  have hdig : ∀ n : Nat, n < 16 → hexDigit (n : Int) ∈ "0123456789abcdef".toList := by
    intro n hn
    interval_cases n <;> decide
  have h3 : Int.fdiv touch.identifier 3 = touch.identifier / 3 :=
    Int.fdiv_eq_ediv _ (by decide)
  have h7 : Int.fdiv touch.identifier 7 = touch.identifier / 7 :=
    Int.fdiv_eq_ediv _ (by decide)
  obtain ⟨r, hr, hr1, hr2⟩ := key touch.identifier h
  obtain ⟨g, hg, hg1, hg2⟩ := key (touch.identifier / 3) (by omega)
  obtain ⟨b, hb, hb1, hb2⟩ := key (touch.identifier / 7) (by omega)
  have hc : colorForTouch touch = String.mk ['#', hexDigit r, hexDigit g, hexDigit b] := by
    simp only [colorForTouch, h3, h7, hr1, hg1, hb1, toString16_digit r hr,
      toString16_digit g hg, toString16_digit b hb]
    rfl
  rw [hr2, hg2, hb2]
  exact ⟨hc, by rw [hc]; rfl, hdig r hr, hdig g hg, hdig b hb⟩

theorem colorForTouch_format_witness :
    colorForTouch ⟨29, 0, 0⟩ = String.mk ['#', hexDigit 13, hexDigit 9, hexDigit 4] :=
  (colorForTouch_format ⟨29, 0, 0⟩ (by decide) (by decide)).1

/-- C9 as stated fails: the identifiers 0 and 16 get different colour strings. -/
theorem colorForTouch_0_16_differ :
    colorForTouch ⟨0, 0, 0⟩ ≠ colorForTouch ⟨16, 0, 0⟩ := by
  decide

/-- C9, amended: identifier 0 maps to `#000` and identifier 16 to `#052`; the two
strings agree in the first (red) digit only. -/
theorem colorForTouch_0_16 :
    colorForTouch ⟨0, 0, 0⟩ = "#000" ∧ colorForTouch ⟨16, 0, 0⟩ = "#052" := by
  decide

/-- C10: `ongoingTouchIndexById` returns the first index holding the identifier,
and `-1` exactly when no record holds it. -/
theorem ongoingTouchIndexById_first (reg : List Touch) (idToFind : Int) :
    ((∃ t ∈ reg, t.identifier = idToFind) →
      ∃ i : Nat, ongoingTouchIndexById reg idToFind = (i : Int) ∧ i < reg.length ∧
        (∃ t, reg.get? i = some t ∧ t.identifier = idToFind) ∧
        ∀ (j : Nat) (u : Touch), j < i → reg.get? j = some u → u.identifier ≠ idToFind) ∧
    (ongoingTouchIndexById reg idToFind = -1 ↔ ¬ ∃ t ∈ reg, t.identifier = idToFind) := by
  constructor
  · intro h
    obtain ⟨pre, t, post, hreg, ht, hpre, hidx⟩ := index_found reg idToFind h
    refine ⟨pre.length, hidx, by simp [hreg], ⟨t, ?_, ht⟩, ?_⟩
    · rw [hreg, List.get?_eq_getElem?]
      exact getElem_mid pre post t
    · intro j u hj hu
      rw [hreg, List.get?_eq_getElem?, List.getElem?_append_left hj] at hu
      exact hpre u (List.getElem?_mem hu)
  · constructor
    · intro hres h
      obtain ⟨pre, t, post, -, -, -, hidx⟩ := index_found reg idToFind h
      rw [hidx] at hres
      omega
    · intro h
      apply index_not_found
      intro t ht hid
      exact h ⟨t, ht, hid⟩

theorem ongoingTouchIndexById_first_witness :
    ∃ i : Nat, ongoingTouchIndexById [⟨4, 0, 0⟩, ⟨7, 1, 1⟩, ⟨7, 2, 2⟩] 7 = (i : Int) ∧ i < 3 :=
  let ⟨i, h1, h2, _⟩ := (ongoingTouchIndexById_first [⟨4, 0, 0⟩, ⟨7, 1, 1⟩, ⟨7, 2, 2⟩] 7).1
    ⟨⟨7, 1, 1⟩, by decide, rfl⟩
  ⟨i, h1, h2⟩

theorem send_post_trace (end_point : String) (touches : List Touch) (w : World) :
    (send_post end_point touches w).trace = w.trace ++ report w.origin end_point touches := by
  simp [send_post, emit, report]

theorem Extends.refl (allowed : Effect → Bool) (w : World) : Extends allowed w w :=
  ⟨rfl, [], by simp, by simp⟩

theorem Extends.trans {allowed : Effect → Bool} {a b c : World}
    (h1 : Extends allowed a b) (h2 : Extends allowed b c) : Extends allowed a c := by
  obtain ⟨o1, m1, t1, x1⟩ := h1
  obtain ⟨o2, m2, t2, x2⟩ := h2
  refine ⟨o2.trans o1, m1 ++ m2, by rw [t2, t1, List.append_assoc], ?_⟩
  intro e he
  rcases List.mem_append.mp he with h | h
  · exact x1 e h
  · exact x2 e h

theorem Extends.mono {p q : Effect → Bool} {a b : World} (hpq : ∀ e, p e = true → q e = true)
    (h : Extends p a b) : Extends q a b := by
  obtain ⟨o1, m1, t1, x1⟩ := h
  exact ⟨o1, m1, t1, fun e he => hpq e (x1 e he)⟩

theorem Extends.of_trace (allowed : Effect → Bool) (w w' : World) (mid : List Effect)
    (ho : w'.origin = w.origin) (ht : w'.trace = w.trace ++ mid)
    (hx : mid.all allowed = true) : Extends allowed w w' :=
  ⟨ho, mid, ht, fun e he => List.all_eq_true.mp hx e he⟩

theorem extends_log (allowed : Effect → Bool) (msg : String) (w : World) :
    Extends allowed w (log msg w) :=
  Extends.of_trace allowed w _ [] rfl (by simp [log]) rfl

theorem extends_emit (allowed : Effect → Bool) (e : Effect) (w : World)
    (h : allowed e = true) : Extends allowed w (emit e w) :=
  Extends.of_trace allowed w _ [e] rfl rfl (by simp [h])

theorem extends_handleStartTouch (touch : Touch) (w : World) :
    Extends notXhr w (handleStartTouch touch w) :=
  Extends.of_trace notXhr w _
    [.beginPath, .arc touch.x touch.y 4, .setFillStyle (colorForTouch touch), .fill] rfl
    (by simp [handleStartTouch, emit, log]) rfl

theorem extends_handleCancelTouch (touch : Touch) (w : World) :
    Extends notXhr w (handleCancelTouch touch w) :=
  Extends.of_trace notXhr w _ [] rfl (by simp [handleCancelTouch]) rfl

theorem extends_handleMoveTouch (touch : Touch) (w : World) :
    ∃ w', handleMoveTouch touch w = some w' ∧ Extends notXhr w w' := by
  by_cases h : ∃ t ∈ w.ongoingTouches, t.identifier = touch.identifier
  · obtain ⟨pre, t, post, hreg, ht, hpre, -⟩ := index_found w.ongoingTouches touch.identifier h
    exact ⟨_, handleMoveTouch_found touch w pre post t hreg ht hpre,
      Extends.of_trace notXhr w _ _ rfl rfl rfl⟩
  · refine ⟨_, handleMoveTouch_absent touch w ?_, extends_log _ _ w⟩
    intro t ht hid
    exact h ⟨t, ht, hid⟩

theorem extends_handleEndTouch (touch : Touch) (w : World) :
    ∃ w', handleEndTouch touch w = some w' ∧ Extends notXhrNorStroke w w' := by
  by_cases h : ∃ t ∈ w.ongoingTouches, t.identifier = touch.identifier
  · obtain ⟨pre, t, post, hreg, ht, hpre, -⟩ := index_found w.ongoingTouches touch.identifier h
    exact ⟨_, handleEndTouch_found touch w pre post t hreg ht hpre,
      Extends.of_trace notXhrNorStroke w _ _ rfl rfl rfl⟩
  · refine ⟨_, handleEndTouch_absent touch w ?_, extends_log _ _ w⟩
    intro t ht hid
    exact h ⟨t, ht, hid⟩

theorem extends_foldl (allowed : Effect → Bool) (body : Touch → World → World)
    (hbody : ∀ t w, Extends allowed w (body t w)) (touches : List Touch) (w : World) :
    Extends allowed w (touches.foldl (fun w touch => body touch w) w) := by
  induction touches generalizing w with
  | nil => exact Extends.refl allowed w
  | cons t rest ih => exact (hbody t w).trans (ih (body t w))

theorem extends_foldlM (allowed : Effect → Bool) (body : Touch → World → Option World)
    (hbody : ∀ t w, ∃ w', body t w = some w' ∧ Extends allowed w w') (touches : List Touch)
    (w : World) :
    ∃ w', touches.foldlM (fun w touch => body touch w) w = some w' ∧ Extends allowed w w' := by
  induction touches generalizing w with
  | nil => exact ⟨w, rfl, Extends.refl allowed w⟩
  | cons t rest ih =>
    obtain ⟨w1, h1, e1⟩ := hbody t w
    obtain ⟨w2, h2, e2⟩ := ih w1
    refine ⟨w2, ?_, e1.trans e2⟩
    simp only [List.foldlM_cons, h1, Option.bind_eq_bind, Option.some_bind]
    exact h2

theorem handleEnd_loop (rect : Rect) (changedTouches : List RawTouch) (w : World) :
    ∃ w1, (getTouches rect changedTouches).foldlM (fun w touch => handleEndTouch touch w)
        (log "touchend" (emit .preventDefault w)) = some w1 ∧
      Extends notXhrNorStroke w w1 := by
  obtain ⟨w1, h1, e1⟩ := extends_foldlM notXhrNorStroke handleEndTouch extends_handleEndTouch
    (getTouches rect changedTouches) (log "touchend" (emit .preventDefault w))
  exact ⟨w1, h1, ((extends_emit _ .preventDefault w rfl).trans (extends_log _ _ _)).trans e1⟩

/-- For every registry and every end batch `handleEnd` returns, and none of
the calls it issues is `ctx.stroke()`. -/
theorem handleEnd_issues_no_stroke (rect : Rect) (changedTouches : List RawTouch) (w : World) :
    ∃ w' added, handleEnd rect changedTouches w = some w' ∧
      w'.trace = w.trace ++ added ∧ Effect.stroke ∉ added := by
  obtain ⟨w1, h1, -, mid, ht, hx⟩ := handleEnd_loop rect changedTouches w
  refine ⟨send_post "touchend" (getTouches rect changedTouches) w1,
    mid ++ report w1.origin "touchend" (getTouches rect changedTouches),
    by simp only [handleEnd, h1, Option.map_some'], ?_, ?_⟩
  · rw [send_post_trace, ht, List.append_assoc]
  · intro hmem
    rcases List.mem_append.mp hmem with h | h
    · have := hx _ h
      simp [notXhrNorStroke, Effect.isStroke] at this
    · simp [report] at h

theorem report_after (w w1 : World) (end_point : String) (touches : List Touch)
    (h : Extends notXhr (emit .preventDefault w) w1) :
    ∃ mid, (∀ e ∈ mid, Effect.isXhr e = false) ∧
      (send_post end_point touches w1).trace =
        w.trace ++ mid ++ report w.origin end_point touches := by
  obtain ⟨ho, mid, ht, hx⟩ := h
  refine ⟨.preventDefault :: mid, ?_, ?_⟩
  · intro e he
    rcases List.mem_cons.mp he with rfl | he
    · rfl
    · simpa [notXhr] using hx e he
  · rw [send_post_trace, ht, ho]
    simp [emit]

/-- C8: every handler ends by one report to its own endpoint, carrying the batch
returned by `getTouches`; the calls before it are not `XMLHttpRequest` calls, and
the handlers that can throw do not. -/
theorem handlers_report_batch (rect : Rect) (changedTouches : List RawTouch) (w : World) :
    (∃ mid, (∀ e ∈ mid, Effect.isXhr e = false) ∧
      (handleStart rect changedTouches w).trace =
        w.trace ++ mid ++ report w.origin "touchstart" (getTouches rect changedTouches)) ∧
    (∃ w' mid, handleMove rect changedTouches w = some w' ∧
      (∀ e ∈ mid, Effect.isXhr e = false) ∧
      w'.trace = w.trace ++ mid ++ report w.origin "touchmove" (getTouches rect changedTouches)) ∧
    (∃ w' mid, handleEnd rect changedTouches w = some w' ∧
      (∀ e ∈ mid, Effect.isXhr e = false) ∧
      w'.trace = w.trace ++ mid ++ report w.origin "touchend" (getTouches rect changedTouches)) ∧
    (∃ mid, (∀ e ∈ mid, Effect.isXhr e = false) ∧
      (handleCancel rect changedTouches w).trace =
        w.trace ++ mid ++ report w.origin "touchcancel" (getTouches rect changedTouches)) := by
  refine ⟨?_, ?_, ?_, ?_⟩
  · exact report_after w _ _ _ (extends_foldl notXhr handleStartTouch extends_handleStartTouch _ _)
  · obtain ⟨w1, h1, e1⟩ := extends_foldlM notXhr handleMoveTouch extends_handleMoveTouch
      (getTouches rect changedTouches) (emit .preventDefault w)
    obtain ⟨mid, hx, ht⟩ := report_after w w1 "touchmove" (getTouches rect changedTouches) e1
    exact ⟨_, mid, by simp only [handleMove, h1, Option.map_some'], hx, ht⟩
  · obtain ⟨w1, h1, e1⟩ := extends_foldlM notXhrNorStroke handleEndTouch extends_handleEndTouch
      (getTouches rect changedTouches) (log "touchend" (emit .preventDefault w))
    obtain ⟨mid, hx, ht⟩ := report_after w w1 "touchend" (getTouches rect changedTouches)
      ((extends_log _ _ _).trans (Extends.mono (fun e he => by
        simp only [notXhrNorStroke, Bool.and_eq_true] at he
        exact he.1) e1))
    exact ⟨_, mid, by simp only [handleEnd, h1, Option.map_some'], hx, ht⟩
  · exact report_after w _ _ _
      ((extends_log _ _ _).trans
        (extends_foldl notXhr handleCancelTouch extends_handleCancelTouch _ _))

theorem iterate_log (msg : String) (n : Nat) (w : World) :
    ((log msg)^[n] w).ongoingTouches = w.ongoingTouches ∧
    ((log msg)^[n] w).trace = w.trace ∧
    ((log msg)^[n] w).origin = w.origin ∧
    ((log msg)^[n] w).logText = (fun old => msg ++ " \n" ++ old)^[n] w.logText := by
  induction n with
  | zero => simp
  | succ n ih =>
    obtain ⟨h1, h2, h3, h4⟩ := ih
    rw [Function.iterate_succ_apply', Function.iterate_succ_apply']
    exact ⟨h1, h2, h3, by simp [log, h4]⟩

theorem foldlM_move_absent (touches : List Touch) (w : World)
    (h : ∀ t ∈ touches, ∀ u ∈ w.ongoingTouches, u.identifier ≠ t.identifier) :
    touches.foldlM (fun w touch => handleMoveTouch touch w) w =
      some ((log "can't figure out which touch to continue")^[touches.length] w) := by
  induction touches generalizing w with
  | nil => rfl
  | cons t rest ih =>
    have ht := handleMoveTouch_absent t w (h t (by simp))
    simp only [List.foldlM_cons, ht, Option.bind_eq_bind, Option.some_bind, List.length_cons,
      Function.iterate_succ_apply]
    exact ih _ (fun t2 h2 u hu => h t2 (by simp [h2]) u hu)

/-- C6: a move batch none of whose identifiers is in the registry leaves the
registry as it is, issues no drawing call, and logs the diagnostic once per
touch of the batch. -/
theorem handleMove_unknown (rect : Rect) (changedTouches : List RawTouch) (w : World)
    (h : ∀ r ∈ changedTouches, ∀ u ∈ w.ongoingTouches, u.identifier ≠ r.identifier) :
    ∃ w', handleMove rect changedTouches w = some w' ∧
      w'.ongoingTouches = w.ongoingTouches ∧
      w'.trace = w.trace ++ Effect.preventDefault ::
        report w.origin "touchmove" (getTouches rect changedTouches) ∧
      (∀ e ∈ w'.trace.drop w.trace.length, Effect.isDrawing e = false) ∧
      w'.logText = (fun old => "can't figure out which touch to continue" ++ " \n" ++ old)^[
        changedTouches.length] w.logText := by
  have h2 : ∀ t ∈ getTouches rect changedTouches,
      ∀ u ∈ (emit .preventDefault w).ongoingTouches, u.identifier ≠ t.identifier := by
    intro t ht u hu
    simp only [getTouches, List.mem_map] at ht
    obtain ⟨r, hr, rfl⟩ := ht
    exact h r hr u hu
  have hf := foldlM_move_absent (getTouches rect changedTouches) (emit .preventDefault w) h2
  have hlen : (getTouches rect changedTouches).length = changedTouches.length := by
    simp [getTouches]
  rw [hlen] at hf
  obtain ⟨i1, i2, i3, i4⟩ := iterate_log "can't figure out which touch to continue"
    changedTouches.length (emit .preventDefault w)
  have htrace : (send_post "touchmove" (getTouches rect changedTouches)
      ((log "can't figure out which touch to continue")^[changedTouches.length]
        (emit .preventDefault w))).trace = w.trace ++ Effect.preventDefault ::
        report w.origin "touchmove" (getTouches rect changedTouches) := by
    rw [send_post_trace, i2, i3]
    simp [emit]
  refine ⟨_, by simp only [handleMove, hf, Option.map_some'], ?_, htrace, ?_, ?_⟩
  · simpa [send_post, emit] using i1
  · rw [htrace, List.drop_left]
    intro e he
    simp only [report, List.mem_cons, List.mem_singleton, List.not_mem_nil, or_false] at he
    rcases he with rfl | rfl | rfl | rfl <;> rfl
  · simpa [send_post, emit] using i4

theorem handleMove_unknown_witness :
    ∃ w', handleMove ⟨0, 0, 100, 100⟩ [⟨2, 30, 40⟩, ⟨3, 50, 60⟩]
        { ongoingTouches := [⟨1, 10, 10⟩], trace := [], logText := "", origin := "http://h" }
        = some w' ∧
      w'.ongoingTouches = [⟨1, 10, 10⟩] :=
  let ⟨w', h1, h2, _⟩ := handleMove_unknown ⟨0, 0, 100, 100⟩ [⟨2, 30, 40⟩, ⟨3, 50, 60⟩]
    { ongoingTouches := [⟨1, 10, 10⟩], trace := [], logText := "", origin := "http://h" }
    (by decide)
  ⟨w', h1, h2⟩

theorem getTouches_ids (rect : Rect) (touchList : List RawTouch) :
    (getTouches rect touchList).map Touch.identifier = touchList.map RawTouch.identifier := by
  simp [getTouches, Function.comp_def]

theorem handleMoveTouch_frame (touch : Touch) (w : World) :
    ∃ w' added, handleMoveTouch touch w = some w' ∧
      w'.trace = w.trace ++ added ∧ w'.origin = w.origin ∧
      w'.ongoingTouches.length = w.ongoingTouches.length ∧
      w'.ongoingTouches.map Touch.identifier = w.ongoingTouches.map Touch.identifier ∧
      ∀ j u, w.ongoingTouches.get? j = some u → u.identifier ≠ touch.identifier →
        w'.ongoingTouches.get? j = some u := by
  by_cases h : ∃ t ∈ w.ongoingTouches, t.identifier = touch.identifier
  · obtain ⟨pre, t, post, hreg, ht, hpre, -⟩ := index_found w.ongoingTouches touch.identifier h
    refine ⟨_, _, handleMoveTouch_found touch w pre post t hreg ht hpre, rfl, rfl, ?_, ?_, ?_⟩
    · simp [hreg]
    · simp [hreg, ht]
    · intro j u hj hu
      show (pre ++ touch :: post).get? j = some u
      rw [hreg] at hj
      rw [List.get?_eq_getElem?] at hj ⊢
      rcases Nat.lt_trichotomy j pre.length with hlt | heq | hgt
      · rw [List.getElem?_append_left hlt] at hj ⊢
        exact hj
      · rw [heq, getElem_mid] at hj
        rw [Option.some.injEq] at hj
        exact absurd (hj ▸ ht) hu
      · rw [List.getElem?_append_right hgt.le] at hj ⊢
        obtain ⟨k, hk⟩ : ∃ k, j - pre.length = k + 1 := ⟨j - pre.length - 1, by omega⟩
        rw [hk] at hj ⊢
        simpa using hj
  · refine ⟨_, [], handleMoveTouch_absent touch w (fun t ht hid => h ⟨t, ht, hid⟩), ?_, rfl, rfl,
      rfl, ?_⟩
    · simp [log]
    · intro j u hj _
      exact hj

theorem foldlM_move_frame (touches : List Touch) (w : World) :
    ∃ w' added, touches.foldlM (fun w touch => handleMoveTouch touch w) w = some w' ∧
      w'.trace = w.trace ++ added ∧ (touches = [] → added = []) ∧ w'.origin = w.origin ∧
      w'.ongoingTouches.length = w.ongoingTouches.length ∧
      w'.ongoingTouches.map Touch.identifier = w.ongoingTouches.map Touch.identifier ∧
      ∀ j u, w.ongoingTouches.get? j = some u →
        (∀ t ∈ touches, t.identifier ≠ u.identifier) → w'.ongoingTouches.get? j = some u := by
  induction touches generalizing w with
  | nil => exact ⟨w, [], rfl, by simp, fun _ => rfl, rfl, rfl, rfl, fun j u hj _ => hj⟩
  | cons t rest ih =>
    obtain ⟨w1, a1, h1, t1, o1, l1, i1, k1⟩ := handleMoveTouch_frame t w
    obtain ⟨w2, a2, h2, t2, -, o2, l2, i2, k2⟩ := ih w1
    refine ⟨w2, a1 ++ a2, ?_, by rw [t2, t1, List.append_assoc], by simp, o2.trans o1,
      l2.trans l1, i2.trans i1, ?_⟩
    · simp only [List.foldlM_cons, h1, Option.bind_eq_bind, Option.some_bind]
      exact h2
    · intro j u hj hall
      exact k2 j u (k1 j u hj (fun e => hall t (by simp) e.symm))
        (fun t2 ht2 => hall t2 (by simp [ht2]))

theorem nodup_ids_ne (reg : List Touch) (i j : Nat) (a b : Touch)
    (hnodup : (reg.map Touch.identifier).Nodup) (hi : reg.get? i = some a)
    (hj : reg.get? j = some b) (hij : j ≠ i) : b.identifier ≠ a.identifier := by
  intro he
  rw [List.get?_eq_getElem?] at hi hj
  obtain ⟨hi1, hi2⟩ := List.getElem?_eq_some.mp hi
  obtain ⟨hj1, hj2⟩ := List.getElem?_eq_some.mp hj
  have li : i < (reg.map Touch.identifier).length := by simpa using hi1
  have lj : j < (reg.map Touch.identifier).length := by simpa using hj1
  have e : (reg.map Touch.identifier)[j] = (reg.map Touch.identifier)[i] := by
    simp [hi2, hj2, he]
  exact hij ((hnodup.getElem_inj_iff).mp e)

/-- C5: for a registry without duplicate identifiers and a move batch with
pairwise distinct identifiers (in the safe-integer range), `handleMove` returns,
and for the touch of the batch whose identifier is stored at index `i` it issues
the calls that stroke one segment from the stored point of record `i` to the new
point and leaves the new record at index `i`.  The registry keeps its length and
its sequence of identifiers, and every record at an index other than `i` whose
identifier no other touch of the batch carries is kept; for a batch of this one
touch the calls before the segment are `preventDefault` alone, the calls after
it are the report, and every record at an index other than `i` is kept. -/
theorem handleMove_replaces (rect : Rect) (earlier later : List RawTouch) (raw : RawTouch)
    (w : World) (i : Nat) (stored : Touch)
    (hnodup : (w.ongoingTouches.map Touch.identifier).Nodup)
    (hbatch : ((earlier ++ raw :: later).map RawTouch.identifier).Nodup)
    (_hsafe : |raw.identifier| < 2 ^ 53)
    (hi : w.ongoingTouches.get? i = some stored)
    (hid : stored.identifier = raw.identifier) :
    ∃ touch w' before after,
      getTouches rect [raw] = [touch] ∧
      handleMove rect (earlier ++ raw :: later) w = some w' ∧
      w'.trace = w.trace ++ before ++
        [.beginPath, .moveTo stored.x stored.y, .lineTo touch.x touch.y,
          .setLineWidth 4, .setStrokeStyle (colorForTouch touch), .stroke] ++ after ∧
      (earlier = [] → before = [.preventDefault]) ∧
      (later = [] →
        after = report w.origin "touchmove" (getTouches rect (earlier ++ raw :: later))) ∧
      w'.ongoingTouches.get? i = some touch ∧
      w'.ongoingTouches.length = w.ongoingTouches.length ∧
      w'.ongoingTouches.map Touch.identifier = w.ongoingTouches.map Touch.identifier ∧
      ∀ j, j ≠ i →
        (∀ u, w.ongoingTouches.get? j = some u →
          ∀ r ∈ earlier ++ later, r.identifier ≠ u.identifier) →
        w'.ongoingTouches.get? j = w.ongoingTouches.get? j := by
  have hsplit : getTouches rect (earlier ++ raw :: later) =
      getTouches rect earlier ++
        { identifier := raw.identifier
          x := clamp (raw.clientX - rect.left) 0 (rect.width - 2)
          y := clamp (raw.clientY - rect.top) 0 (rect.height - 2) } ::
        getTouches rect later := by
    simp [getTouches]
  generalize htouch : ({ identifier := raw.identifier
                         x := clamp (raw.clientX - rect.left) 0 (rect.width - 2)
                         y := clamp (raw.clientY - rect.top) 0 (rect.height - 2) } : Touch)
    = touch at hsplit
  have htid : touch.identifier = raw.identifier := by rw [← htouch]
  rw [List.map_append, List.map_cons, List.nodup_append, List.nodup_cons] at hbatch
  obtain ⟨-, ⟨hraw_later, -⟩, hdisj⟩ := hbatch
  have hraw_earlier : raw.identifier ∉ earlier.map RawTouch.identifier :=
    fun hmem => hdisj hmem (by simp)
  have mem_ids : ∀ (l : List RawTouch) (t : Touch), t ∈ getTouches rect l →
      t.identifier ∈ l.map RawTouch.identifier := by
    intro l t ht
    rw [← getTouches_ids rect l]
    exact List.mem_map_of_mem _ ht
  obtain ⟨w1, a1, h1, t1, n1, o1, l1, i1, k1⟩ :=
    foldlM_move_frame (getTouches rect earlier) (emit .preventDefault w)
  have hw0 : (emit Effect.preventDefault w).ongoingTouches = w.ongoingTouches := rfl
  rw [hw0] at l1 i1 k1
  have hi1 : w1.ongoingTouches.get? i = some stored := by
    apply k1 i stored hi
    intro t ht e
    exact hraw_earlier (by rw [← hid, ← e]; exact mem_ids earlier t ht)
  obtain ⟨w2, h2, t2, -, g2, l2, i2, k2, o2⟩ := handleMoveTouch_step touch w1 i stored
    (by rw [i1]; exact hnodup) hi1 (hid.trans htid.symm)
  obtain ⟨w3, a3, h3, t3, n3, o3, l3, i3, k3⟩ := foldlM_move_frame (getTouches rect later) w2
  have hg3 : w3.ongoingTouches.get? i = some touch := by
    apply k3 i touch g2
    intro t ht e
    exact hraw_later (by rw [← htid, ← e]; exact mem_ids later t ht)
  have hrun : handleMove rect (earlier ++ raw :: later) w =
      some (send_post "touchmove" (getTouches rect (earlier ++ raw :: later)) w3) := by
    simp only [handleMove]
    rw [hsplit, List.foldlM_append]
    simp only [h1, Option.bind_eq_bind, Option.some_bind, List.foldlM_cons, h2, h3,
      Option.map_some']
  have hreg : (send_post "touchmove" (getTouches rect (earlier ++ raw :: later))
      w3).ongoingTouches = w3.ongoingTouches := rfl
  refine ⟨touch, _, Effect.preventDefault :: a1,
    a3 ++ report w.origin "touchmove" (getTouches rect (earlier ++ raw :: later)),
    by simp [getTouches, htouch], hrun, ?_, ?_, ?_, ?_, ?_, ?_, ?_⟩
  · rw [send_post_trace, t3, t2, t1, o3, o2, o1]
    simp [emit]
  · intro he
    rw [n1 (by rw [he]; rfl)]
  · intro hl
    rw [n3 (by rw [hl]; rfl), List.nil_append]
  · rw [hreg]; exact hg3
  · rw [hreg, l3, l2, l1]
  · rw [hreg, i3, i2, i1]
  · intro j hj hkeep
    rw [hreg]
    cases hu : w.ongoingTouches.get? j with
    | none =>
      rw [List.get?_eq_none] at hu ⊢
      rw [l3, l2, l1]
      exact hu
    | some u =>
      have hne : u.identifier ≠ stored.identifier := nodup_ids_ne _ i j stored u hnodup hi hu hj
      have hall := hkeep u hu
      have s1 : w1.ongoingTouches.get? j = some u := by
        apply k1 j u hu
        intro t ht e
        obtain ⟨r, hr, hre⟩ := List.mem_map.mp (mem_ids earlier t ht)
        exact hall r (by simp [hr]) (hre.trans e)
      have s2 : w2.ongoingTouches.get? j = some u := by rw [k2 j hj]; exact s1
      apply k3 j u s2
      intro t ht e
      obtain ⟨r, hr, hre⟩ := List.mem_map.mp (mem_ids later t ht)
      exact hall r (by simp [hr]) (hre.trans e)

theorem handleMove_replaces_witness :
    ∃ touch w' before after,
      getTouches ⟨0, 0, 100, 100⟩ [⟨1, 20, 15⟩] = [touch] ∧
      handleMove ⟨0, 0, 100, 100⟩ ([⟨7, 3, 3⟩] ++ ⟨1, 20, 15⟩ :: [⟨5, 2, 2⟩])
        { ongoingTouches := [⟨5, 1, 1⟩, ⟨1, 10, 10⟩, ⟨4, 9, 9⟩], trace := [], logText := "",
          origin := "http://h" } = some w' ∧
      w'.trace = [] ++ before ++
        [.beginPath, .moveTo 10 10, .lineTo touch.x touch.y,
          .setLineWidth 4, .setStrokeStyle (colorForTouch touch), .stroke] ++ after ∧
      w'.ongoingTouches.get? 1 = some touch :=
  let ⟨touch, w', before, after, h1, h2, h3, _, _, h4, _⟩ :=
    handleMove_replaces ⟨0, 0, 100, 100⟩ [⟨7, 3, 3⟩] [⟨5, 2, 2⟩] ⟨1, 20, 15⟩
      { ongoingTouches := [⟨5, 1, 1⟩, ⟨1, 10, 10⟩, ⟨4, 9, 9⟩], trace := [], logText := "",
        origin := "http://h" } 1 ⟨1, 10, 10⟩ (by decide) (by decide) (by decide) rfl rfl
  ⟨touch, w', before, after, h1, h2, h3, h4⟩

/-- C3 fails on the code: cancelling identifier 2 while only identifier 1 is in
the registry removes the record of identifier 1; the report is still sent. -/
theorem handleCancel_absent_removes_last :
    (handleCancel ⟨0, 0, 100, 100⟩ [⟨2, 50, 50⟩]
      { ongoingTouches := [⟨1, 10, 10⟩], trace := [], logText := "",
        origin := "http://h" }).ongoingTouches = [] ∧
    (handleCancel ⟨0, 0, 100, 100⟩ [⟨2, 50, 50⟩]
      { ongoingTouches := [⟨1, 10, 10⟩], trace := [], logText := "",
        origin := "http://h" }).trace =
      Effect.preventDefault :: report "http://h" "touchcancel" [⟨2, 50, 50⟩] := by
  decide

/-- C4 fails on the code: ending identifier 1 builds the path from the stored
point (20, 15) to the new point (25, 15) and fills the square at (21, 11), but no
`stroke` call is issued, so the segment is never painted. -/
theorem handleEnd_never_strokes :
    (handleEnd ⟨0, 0, 100, 100⟩ [⟨1, 25, 15⟩]
      { ongoingTouches := [⟨1, 20, 15⟩], trace := [], logText := "",
        origin := "http://h" }).map (fun w => (w.trace, w.ongoingTouches)) =
      some ([.preventDefault, .setLineWidth 4, .setFillStyle "#100", .beginPath,
        .moveTo 20 15, .lineTo 25 15, .fillRect 21 11 8 8,
        .xhrOpen "POST" "http://h/touchend",
        .xhrSetRequestHeader "Content-Type" "application/json",
        .xhrSend [⟨1, 25, 15⟩]], []) ∧
    (handleEnd ⟨0, 0, 100, 100⟩ [⟨1, 25, 15⟩]
      { ongoingTouches := [⟨1, 20, 15⟩], trace := [], logText := "",
        origin := "http://h" }).all (fun w => !w.trace.contains Effect.stroke) = true := by
  decide

theorem foldl_start_registry (touches : List Touch) (w : World) :
    (touches.foldl (fun w touch => handleStartTouch touch w) w).ongoingTouches =
      w.ongoingTouches ++ touches := by
  induction touches generalizing w with
  | nil => simp
  | cons t rest ih =>
    rw [List.foldl_cons, ih]
    simp [handleStartTouch, emit, log]

theorem handleStart_registry (rect : Rect) (changedTouches : List RawTouch) (w : World) :
    (handleStart rect changedTouches w).ongoingTouches =
      w.ongoingTouches ++ getTouches rect changedTouches := by
  simp only [handleStart, send_post, emit, foldl_start_registry]

theorem erase_ids_split (pre post : List Touch) (t : Touch) (id : Int)
    (hid : t.identifier = id) (hpre : ∀ u ∈ pre, u.identifier ≠ id) :
    ((pre ++ t :: post).map Touch.identifier).erase id = (pre ++ post).map Touch.identifier := by
  have hnot : id ∉ pre.map Touch.identifier := by
    intro hmem
    obtain ⟨u, hu, he⟩ := List.mem_map.mp hmem
    exact hpre u hu he
  rw [List.map_append, List.map_cons, List.erase_append_right _ hnot, hid,
    List.erase_cons_head, List.map_append]

theorem erase_ids_absent (reg : List Touch) (id : Int)
    (h : ∀ t ∈ reg, t.identifier ≠ id) :
    (reg.map Touch.identifier).erase id = reg.map Touch.identifier := by
  apply List.erase_of_not_mem
  intro hmem
  obtain ⟨u, hu, he⟩ := List.mem_map.mp hmem
  exact h u hu he

theorem handleEndTouch_ids (touch : Touch) (w : World) :
    ∃ w', handleEndTouch touch w = some w' ∧
      w'.ongoingTouches.map Touch.identifier =
        (w.ongoingTouches.map Touch.identifier).erase touch.identifier := by
  by_cases h : ∃ t ∈ w.ongoingTouches, t.identifier = touch.identifier
  · obtain ⟨pre, t, post, hreg, ht, hpre, -⟩ := index_found w.ongoingTouches touch.identifier h
    refine ⟨_, handleEndTouch_found touch w pre post t hreg ht hpre, ?_⟩
    rw [hreg, erase_ids_split pre post t _ ht hpre]
  · have h2 : ∀ t ∈ w.ongoingTouches, t.identifier ≠ touch.identifier :=
      fun t ht hid => h ⟨t, ht, hid⟩
    refine ⟨_, handleEndTouch_absent touch w h2, ?_⟩
    rw [erase_ids_absent _ _ h2]
    rfl

theorem handleCancelTouch_ids (touch : Touch) (w : World)
    (h : touch.identifier ∈ w.ongoingTouches.map Touch.identifier) :
    (handleCancelTouch touch w).ongoingTouches.map Touch.identifier =
      (w.ongoingTouches.map Touch.identifier).erase touch.identifier := by
  obtain ⟨u, hu, he⟩ := List.mem_map.mp h
  obtain ⟨pre, t, post, hreg, ht, hpre, -⟩ :=
    index_found w.ongoingTouches touch.identifier ⟨u, hu, he⟩
  rw [handleCancelTouch_found touch w pre post t hreg ht hpre, hreg,
    erase_ids_split pre post t _ ht hpre]

theorem foldlM_end_ids (touches : List Touch) (w : World) :
    ∃ w', touches.foldlM (fun w touch => handleEndTouch touch w) w = some w' ∧
      w'.ongoingTouches.map Touch.identifier =
        (touches.map Touch.identifier).foldl List.erase
          (w.ongoingTouches.map Touch.identifier) := by
  induction touches generalizing w with
  | nil => exact ⟨w, rfl, rfl⟩
  | cons t rest ih =>
    obtain ⟨w1, h1, e1⟩ := handleEndTouch_ids t w
    obtain ⟨w2, h2, e2⟩ := ih w1
    refine ⟨w2, ?_, ?_⟩
    · simp only [List.foldlM_cons, h1, Option.bind_eq_bind, Option.some_bind]
      exact h2
    · rw [e2, e1]
      rfl

theorem foldl_cancel_ids (touches : List Touch) (w : World)
    (hnd : (touches.map Touch.identifier).Nodup)
    (hin : ∀ id ∈ touches.map Touch.identifier, id ∈ w.ongoingTouches.map Touch.identifier) :
    (touches.foldl (fun w touch => handleCancelTouch touch w) w).ongoingTouches.map
        Touch.identifier =
      (touches.map Touch.identifier).foldl List.erase
        (w.ongoingTouches.map Touch.identifier) := by
  induction touches generalizing w with
  | nil => rfl
  | cons t rest ih =>
    rw [List.map_cons, List.nodup_cons] at hnd
    have h1 := handleCancelTouch_ids t w (hin _ (by simp))
    rw [List.foldl_cons, ih _ hnd.2, h1]
    · rfl
    · intro id hid
      rw [h1]
      have hne : id ≠ t.identifier := fun e => hnd.1 (e ▸ hid)
      exact (List.mem_erase_of_ne hne).mpr (hin id (by simp [hid]))

theorem foldl_erase_spec (ids l : List Int) (hl : l.Nodup) :
    (ids.foldl List.erase l).Nodup ∧ ∀ x, x ∈ ids.foldl List.erase l ↔ x ∈ l ∧ x ∉ ids := by
  induction ids generalizing l with
  | nil => simp [hl]
  | cons a rest ih =>
    obtain ⟨h1, h2⟩ := ih (l.erase a) (hl.erase a)
    refine ⟨h1, ?_⟩
    intro x
    rw [List.foldl_cons, h2, hl.mem_erase_iff, List.mem_cons]
    tauto

theorem dispatch_matches (w : World) (down : List Int) (b : Batch)
    (hinv : RegistryMatches w.ongoingTouches down) (hadm : admissible down b = true) :
    ∃ w', dispatch w b = some w' ∧ RegistryMatches w'.ongoingTouches (stepDown down b) := by
  obtain ⟨hnd, hmem⟩ := hinv
  cases b with
  | start rect c =>
    simp only [admissible, Bool.and_eq_true, decide_eq_true_eq, List.all_eq_true] at hadm
    refine ⟨_, rfl, ?_, ?_⟩
    · rw [handleStart_registry, List.map_append, getTouches_ids]
      refine List.Nodup.append hnd hadm.1 ?_
      intro id h1 h2
      exact hadm.2 id h2 ((hmem id).mp h1)
    · intro id
      rw [handleStart_registry, List.map_append, getTouches_ids]
      simp only [stepDown, List.mem_dedup, List.mem_append, hmem id]
  | finish rect c =>
    obtain ⟨w1, h1, e1⟩ := foldlM_end_ids (getTouches rect c)
      (log "touchend" (emit .preventDefault w))
    have hreg : (log "touchend" (emit .preventDefault w)).ongoingTouches = w.ongoingTouches := rfl
    rw [hreg, getTouches_ids] at e1
    obtain ⟨s1, s2⟩ := foldl_erase_spec (c.map RawTouch.identifier) _ hnd
    refine ⟨send_post "touchend" (getTouches rect c) w1, ?_, ?_, ?_⟩
    · simp only [dispatch, handleEnd, h1, Option.map_some']
    · show (w1.ongoingTouches.map Touch.identifier).Nodup
      rw [e1]; exact s1
    · intro id
      show id ∈ w1.ongoingTouches.map Touch.identifier ↔ _
      rw [e1, s2 id, hmem id]
      simp [stepDown, List.mem_filter]
  | cancel rect c =>
    simp only [admissible, Bool.and_eq_true, decide_eq_true_eq, List.all_eq_true] at hadm
    have hreg : (log "touchcancel." (emit .preventDefault w)).ongoingTouches =
      w.ongoingTouches := rfl
    have e1 := foldl_cancel_ids (getTouches rect c) (log "touchcancel." (emit .preventDefault w))
      (by rw [getTouches_ids]; exact hadm.1)
      (by
        rw [getTouches_ids, hreg]
        intro id hid
        exact (hmem id).mpr (hadm.2 id hid))
    rw [hreg, getTouches_ids] at e1
    obtain ⟨s1, s2⟩ := foldl_erase_spec (c.map RawTouch.identifier) _ hnd
    refine ⟨_, rfl, ?_, ?_⟩
    · show ((List.foldl (fun w touch => handleCancelTouch touch w)
        (log "touchcancel." (emit .preventDefault w))
        (getTouches rect c)).ongoingTouches.map Touch.identifier).Nodup
      rw [e1]; exact s1
    · intro id
      show id ∈ (List.foldl (fun w touch => handleCancelTouch touch w)
        (log "touchcancel." (emit .preventDefault w))
        (getTouches rect c)).ongoingTouches.map Touch.identifier ↔ _
      rw [e1, s2 id, hmem id]
      simp [stepDown, List.mem_filter]

theorem foldlM_dispatch_matches (batches : List Batch) (w : World) (down : List Int)
    (hinv : RegistryMatches w.ongoingTouches down)
    (hadm : admissibleFrom down batches = true) :
    ∃ w', batches.foldlM dispatch w = some w' ∧
      RegistryMatches w'.ongoingTouches (batches.foldl stepDown down) := by
  induction batches generalizing w down with
  | nil => exact ⟨w, rfl, hinv⟩
  | cons b rest ih =>
    simp only [admissibleFrom, Bool.and_eq_true] at hadm
    obtain ⟨w1, h1, i1⟩ := dispatch_matches w down b hinv hadm.1
    obtain ⟨w2, h2, i2⟩ := ih w1 (stepDown down b) i1 hadm.2
    refine ⟨w2, ?_, i2⟩
    simp only [List.foldlM_cons, h1, Option.bind_eq_bind, Option.some_bind]
    exact h2

/-- C2 as stated fails: after two start batches that both carry identifier 1
the registry holds two records with identifier 1. -/
theorem registry_invariant_fails_on_repeated_start :
    ¬ ∃ w, run "http://h" [.start ⟨0, 0, 100, 100⟩ [⟨1, 10, 10⟩],
          .start ⟨0, 0, 100, 100⟩ [⟨1, 30, 30⟩]] = some w ∧
        (w.ongoingTouches.map Touch.identifier).Nodup ∧
        ∀ id, List.count id (w.ongoingTouches.map Touch.identifier) =
          if id ∈ downIds [.start ⟨0, 0, 100, 100⟩ [⟨1, 10, 10⟩],
            .start ⟨0, 0, 100, 100⟩ [⟨1, 30, 30⟩]] then 1 else 0 := by
  rintro ⟨w, hrun, hnd, -⟩
  have h : (run "http://h" [.start ⟨0, 0, 100, 100⟩ [⟨1, 10, 10⟩],
      .start ⟨0, 0, 100, 100⟩ [⟨1, 30, 30⟩]]).map
        (fun w => w.ongoingTouches.map Touch.identifier) = some [1, 1] := by
    decide
  rw [hrun, Option.map_some', Option.some.injEq] at h
  rw [h] at hnd
  exact absurd hnd (by decide)

/-- C2, amended: from the empty registry, after every sequence of start, end
and cancel batches in which each start batch carries pairwise distinct
identifiers none of which is down and each cancel batch carries pairwise distinct
identifiers all of which are down, the handlers return, no two records share an
identifier, and the registry holds exactly one record for each identifier that is
down and none for any other. -/
theorem registry_invariant (origin : String) (batches : List Batch)
    (h : admissibleFrom [] batches = true) :
    ∃ w, run origin batches = some w ∧
      (w.ongoingTouches.map Touch.identifier).Nodup ∧
      ∀ id, List.count id (w.ongoingTouches.map Touch.identifier) =
        if id ∈ downIds batches then 1 else 0 := by
  obtain ⟨w, hrun, hnd, hmem⟩ := foldlM_dispatch_matches batches (World.initial origin) []
    ⟨by simp [World.initial], by simp [World.initial]⟩ h
  refine ⟨w, hrun, hnd, ?_⟩
  intro id
  by_cases hid : id ∈ downIds batches
  · rw [if_pos hid]
    exact List.count_eq_one_of_mem hnd ((hmem id).mpr hid)
  · rw [if_neg hid]
    exact List.count_eq_zero_of_not_mem (fun hin => hid ((hmem id).mp hin))

theorem registry_invariant_witness :
    ∃ w, run "http://h" [.start ⟨0, 0, 100, 100⟩ [⟨1, 10, 10⟩, ⟨2, 20, 20⟩],
        .finish ⟨0, 0, 100, 100⟩ [⟨1, 12, 12⟩, ⟨9, 0, 0⟩],
        .start ⟨0, 0, 100, 100⟩ [⟨1, 40, 40⟩],
        .cancel ⟨0, 0, 100, 100⟩ [⟨2, 20, 20⟩]] = some w ∧
      (w.ongoingTouches.map Touch.identifier).Nodup :=
  let ⟨w, h1, h2, _⟩ := registry_invariant "http://h"
    [.start ⟨0, 0, 100, 100⟩ [⟨1, 10, 10⟩, ⟨2, 20, 20⟩],
      .finish ⟨0, 0, 100, 100⟩ [⟨1, 12, 12⟩, ⟨9, 0, 0⟩],
      .start ⟨0, 0, 100, 100⟩ [⟨1, 40, 40⟩],
      .cancel ⟨0, 0, 100, 100⟩ [⟨2, 20, 20⟩]] (by decide)
  ⟨w, h1, h2⟩

end TouchpadEmulator
